import Mathlib

set_option maxRecDepth 40000

/-!
Verification of the float-operation set of `src/float_impls.rs` (an `f32`
capability trait with classification, rounding, selection, power/root/log and
inverse-hyperbolic operations).

The embedding represents an `f32` value as its IEEE-754 binary32 bit pattern
(sign bit, 8-bit biased exponent field, 23-bit fraction field).  The Rust file
delegates its arithmetic to compiler intrinsics and to `core::num::Float`,
both of which live outside this repository; those primitives are modelled
here, bit-exactly, from the spec's IEEE-754 binary32 semantics (spec §1, §3):
round-to-nearest ties-to-even, signed zeros, signed infinities, quiet NaN
results.  Every function that does appear in `float_impls.rs` is translated
from the source line by line.
-/

/-- An IEEE-754 binary32 bit pattern: sign bit, biased exponent field (8 bits),
fraction field (23 bits).  `8388608 = 2^23`. -/
structure F32 where
  sign : Bool
  ex : Fin 256
  frac : Fin 8388608
  deriving DecidableEq

namespace F32

/-- Magnitude of a pattern in units of `2^(-149)` (the smallest subnormal):
subnormal patterns (`ex = 0`) denote `frac * 2^(-149)`, other patterns denote
`(2^23 + frac) * 2^(ex - 150) = (2^23 + frac) * 2^(ex-1) * 2^(-149)`.
Applying the same formula at `ex = 255` yields a sentinel larger than every
finite magnitude, which makes it directly usable as an ordering key for the
IEEE comparisons (infinities compare above all finite values). -/
def natMag (x : F32) : ℕ :=
  if x.ex.val = 0 then x.frac.val else (8388608 + x.frac.val) * 2 ^ (x.ex.val - 1)

/-- Signed magnitude (ordering key), in units of `2^(-149)`. -/
def intVal (x : F32) : ℤ :=
  if x.sign then -(x.natMag : ℤ) else (x.natMag : ℤ)

/-- Modelled from the spec (§4.1); the source delegates to
`core::num::Float::is_nan`, which is outside this repository, and pins the
behaviour through its doc examples.  NaN: exponent field all ones, nonzero
fraction field. -/
def is_nan (x : F32) : Bool :=
  decide (x.ex.val = 255) && decide (x.frac.val ≠ 0)

/-- Modelled from the spec (§4.1); the source delegates to
`core::num::Float::is_infinite`.  Infinity: exponent field all ones, zero
fraction field, either sign. -/
def is_infinite (x : F32) : Bool :=
  decide (x.ex.val = 255) && decide (x.frac.val = 0)

/-- Modelled from the spec (§4.1); the source delegates to
`core::num::Float::is_finite`.  Finite: exponent field not all ones. -/
def is_finite (x : F32) : Bool :=
  decide (x.ex.val ≠ 255)

/-- Replace the sign bit of a pattern. -/
def setSign (b : Bool) (x : F32) : F32 := ⟨b, x.ex, x.frac⟩

/-- IEEE-754 negation: flip the sign bit. -/
def neg (x : F32) : F32 := ⟨!x.sign, x.ex, x.frac⟩

/-- IEEE `<` on bit patterns: false whenever an operand is NaN, otherwise
compare signed magnitudes (so `-0.0 < 0.0` is false).  Modelled from the
spec's IEEE ordering (§3, §4.3); the Rust comparison operators on `f32` are
primitive and live outside this repository. -/
def fLt (x y : F32) : Bool :=
  !x.is_nan && !y.is_nan && decide (x.intVal < y.intVal)

/-- IEEE `>` on bit patterns; see `fLt`. -/
def fGt (x y : F32) : Bool :=
  !x.is_nan && !y.is_nan && decide (y.intVal < x.intVal)

/-- IEEE `==` on bit patterns: false whenever an operand is NaN, and
`0.0 == -0.0`; see `fLt`. -/
def fEq (x y : F32) : Bool :=
  !x.is_nan && !y.is_nan && decide (x.intVal = y.intVal)

/-- IEEE `>=` on bit patterns: `>` or `==`. -/
def fGe (x y : F32) : Bool := fGt x y || fEq x y

end F32

/-- The pattern of `+0.0`. -/
def posZero : F32 := ⟨false, 0, 0⟩

/-- The pattern of `-0.0`. -/
def negZero : F32 := ⟨true, 0, 0⟩

/-- The pattern of `1.0`. -/
def oneF : F32 := ⟨false, 127, 0⟩

/-- The pattern of `2.0`. -/
def twoF : F32 := ⟨false, 128, 0⟩

/-- The pattern of `0.5`. -/
def halfF : F32 := ⟨false, 126, 0⟩

/-- The pattern of `2.5`. -/
def twoPointFiveF : F32 := ⟨false, 128, 2097152⟩

/-- The pattern of `5.0`. -/
def fiveF : F32 := ⟨false, 129, 2097152⟩

/-- The pattern of `4.0`. -/
def fourF : F32 := ⟨false, 129, 0⟩

/-- The pattern of `+infinity` (`core::f32::INFINITY`). -/
def posInf : F32 := ⟨false, 255, 0⟩

/-- The pattern of `-infinity` (`core::f32::NEG_INFINITY`). -/
def negInf : F32 := ⟨true, 255, 0⟩

/-- The canonical quiet NaN pattern `0x7FC00000` (`core::f32::NAN`).  All NaN
results of the modelled primitives are canonicalised to this pattern; the
claims under verification never distinguish NaN payloads. -/
def qNaN : F32 := ⟨false, 255, 4194304⟩

/-- Structural base-2 floor-logarithm with explicit fuel, so that it reduces
inside the kernel (the library `Nat.log2` is defined by well-founded recursion
and does not). -/
def log2Aux : ℕ → ℕ → ℕ
  | 0, _ => 0
  | fuel + 1, n => if n < 2 then 0 else log2Aux fuel (n / 2) + 1

/-- Floor of `log2 n`, correct for every `n < 2^512` (all quantities appearing
in the binary32 model are far below that). -/
def nlog2 (n : ℕ) : ℕ := log2Aux 512 n

/-- Round the rational `a / b` to the nearest integer, ties to even. -/
def roundNE (a b : ℕ) : ℕ :=
  let q := a / b
  let r := a % b
  if 2 * r > b ∨ (2 * r = b ∧ q % 2 = 1) then q + 1 else q

/-- Encode the magnitude `n * 2^e` (in units of `2^(-149)`), where `n ≤ 2^24`
is a rounded significand and `e` the scale produced by `roundMagQ`, as a
sign-`false` pattern; `+infinity` on exponent-range overflow.  `n = 2^24`
(the significand rounded up across a binade boundary) is renormalised to
`2^23` with `e + 1`. -/
def encodeMag (n : ℕ) (e : ℕ) : F32 :=
  if n = 0 then posZero
  else if h : n < 8388608 then ⟨false, 0, ⟨n, h⟩⟩
  else
    let n' := if n = 16777216 then 8388608 else n
    let e' := if n = 16777216 then e + 1 else e
    if h2 : n' - 8388608 < 8388608 then
      if h3 : e' + 1 < 255 then ⟨false, ⟨e' + 1, by omega⟩, ⟨n' - 8388608, h2⟩⟩
      else posInf
    else posInf

/-- Modelled from the spec (§3): IEEE-754 binary32 round-to-nearest,
ties-to-even, of the exact nonnegative rational `a / b` given in units of
`2^(-149)`.  Magnitudes below `2^24` units lie on the uniform
subnormal/low-normal grid with unit spacing; larger magnitudes in the binade
`[2^L, 2^(L+1))` lie on a grid with spacing `2^(L-23)`.  Returns a
sign-`false` pattern, or `+infinity` when the rounded value exceeds the
largest finite magnitude. -/
def roundMagQ (a b : ℕ) : F32 :=
  if a / b < 16777216 then
    encodeMag (roundNE a b) 0
  else
    encodeMag (roundNE a (b * 2 ^ (nlog2 (a / b) - 23))) (nlog2 (a / b) - 23)

/-- Modelled from the spec (§3): IEEE-754 binary32 addition (the primitive
`+` on `f32`, outside this repository), round-to-nearest ties-to-even.  NaN
operands produce NaN; infinities of opposite sign produce NaN, otherwise an
infinite operand is returned; an exactly zero sum is `+0.0` unless both
operands are negative (the `(-0.0) + (-0.0) = -0.0` rule); otherwise the
exact sum (an integer in `2^(-149)` units) is rounded and carries the sum's
sign. -/
def f32_add (x y : F32) : F32 :=
  if x.is_nan || y.is_nan then qNaN
  else if x.is_infinite then
    if y.is_infinite && (x.sign != y.sign) then qNaN else x
  else if y.is_infinite then y
  else if x.intVal + y.intVal = 0 then (if x.sign && y.sign then negZero else posZero)
  else F32.setSign (decide (x.intVal + y.intVal < 0))
    (roundMagQ (x.intVal + y.intVal).natAbs 1)

/-- IEEE-754 binary32 subtraction: `x - y = x + (-y)` (sign-flip of the
second operand), exactly as for the primitive `-` on `f32`. -/
def f32_sub (x y : F32) : F32 := f32_add x (F32.neg y)

/-- Modelled from the spec (§3): IEEE-754 binary32 multiplication (the
primitive `*` on `f32`), round-to-nearest ties-to-even.  The result sign is
the XOR of the operand signs; NaN operands and `infinity * 0` produce NaN;
an infinite operand with a nonzero co-operand produces a signed infinity;
finite operands give the rounded exact product `natMag x * natMag y` in
`2^(-298)` units, i.e. `roundMagQ` of that product over `2^149`. -/
def f32_mul (x y : F32) : F32 :=
  if x.is_nan || y.is_nan then qNaN
  else if x.is_infinite || y.is_infinite then
    if x.natMag = 0 || y.natMag = 0 then qNaN
    else F32.setSign (x.sign != y.sign) posInf
  else F32.setSign (x.sign != y.sign) (roundMagQ (x.natMag * y.natMag) (2 ^ 149))

/-- Modelled from the spec (§3): IEEE-754 binary32 division (the primitive
`/` on `f32`), round-to-nearest ties-to-even.  `0/0` and `inf/inf` are NaN;
`x/0` with `x` nonzero is a signed infinity; `x/inf` is a signed zero;
finite nonzero cases round the exact quotient. -/
def f32_div (x y : F32) : F32 :=
  if x.is_nan || y.is_nan then qNaN
  else if x.is_infinite then
    if y.is_infinite then qNaN else F32.setSign (x.sign != y.sign) posInf
  else if y.is_infinite then F32.setSign (x.sign != y.sign) posZero
  else if y.natMag = 0 then
    if x.natMag = 0 then qNaN else F32.setSign (x.sign != y.sign) posInf
  else F32.setSign (x.sign != y.sign) (roundMagQ (x.natMag * 2 ^ 149) y.natMag)

/-- Source `fn trunc` (the `truncf32` intrinsic is outside this repository;
modelled from the spec §4.2: integer part toward zero, `NaN → NaN`,
`±infinity → itself`, `±0.0 → itself`).  Patterns with exponent field `≥ 150`
(magnitude `≥ 2^23`, plus infinities and NaNs) are already integral and are
returned unchanged; exponent field `≤ 126` (magnitude `< 1`) truncates to a
zero of the same sign; otherwise the low `150 - ex` fraction bits are
cleared. -/
def f32_trunc (x : F32) : F32 :=
  if 150 ≤ x.ex.val then x
  else if x.ex.val ≤ 126 then ⟨x.sign, 0, 0⟩
  else
    ⟨x.sign, x.ex,
      ⟨x.frac.val / 2 ^ (150 - x.ex.val) * 2 ^ (150 - x.ex.val),
        Nat.lt_of_le_of_lt (Nat.div_mul_le_self _ _) x.frac.isLt⟩⟩

/-- Source `fn fract`: `self - self.trunc()`. -/
def f32_fract (x : F32) : F32 := f32_sub x (f32_trunc x)

/-- Source `fn max`: `if self > other { self } else { other }`. -/
def f32_max (x y : F32) : F32 := if F32.fGt x y then x else y

/-- Source `fn min`: `if self < other { self } else { other }`. -/
def f32_min (x y : F32) : F32 := if F32.fLt x y then x else y

/-- Round-up test for the square root: with `k = Nat.sqrt A` the floor of the
root and grid spacing `2^s`, the correctly rounded significand is
`k / 2^s + 1` exactly when `sqrt A` exceeds the midpoint
`(k / 2^s + 1/2) * 2^s`, i.e. when `(2 * (k / 2^s) + 1)^2 * 2^(2s) < 4 * A`
(a tie is impossible: the square of a grid midpoint has a 49-bit odd factor,
which no binary32 magnitude `A = M * 2^149` has). -/
def sqrtRoundUp (A k s : ℕ) : Bool :=
  decide ((2 * (k / 2 ^ s) + 1) ^ 2 * 2 ^ (2 * s) < 4 * A)

/-- Correctly rounded square root of the positive finite magnitude `M` (in
`2^(-149)` units): the true root is `sqrt (M * 2^149)` in the same units;
`Nat.sqrt` gives its floor `k`, which is truncated to a 24-bit significand at
scale `2^(nlog2 k - 23)` and bumped by `sqrtRoundUp`. -/
def sqrtMagPos (M : ℕ) : F32 :=
  encodeMag
    (if sqrtRoundUp (M * 2 ^ 149) (Nat.sqrt (M * 2 ^ 149))
        (nlog2 (Nat.sqrt (M * 2 ^ 149)) - 23) then
      Nat.sqrt (M * 2 ^ 149) / 2 ^ (nlog2 (Nat.sqrt (M * 2 ^ 149)) - 23) + 1
    else Nat.sqrt (M * 2 ^ 149) / 2 ^ (nlog2 (Nat.sqrt (M * 2 ^ 149)) - 23))
    (nlog2 (Nat.sqrt (M * 2 ^ 149)) - 23)

/-- Modelled from the spec (§4.4): the `sqrtf32` intrinsic (outside this
repository), i.e. the IEEE-754 correctly rounded square root:
`NaN → NaN`, `±0.0 → ±0.0` (sign preserved), negative → NaN,
`+infinity → +infinity`, positive finite → `sqrtMagPos`. -/
def sqrtIntrinsic (x : F32) : F32 :=
  if x.is_nan then qNaN
  else if x.natMag = 0 then x
  else if x.sign then qNaN
  else if x.is_infinite then posInf
  else sqrtMagPos x.natMag

/-- Source `fn sqrt`: `if self < 0.0 { NAN } else { intrinsics::sqrtf32(self) }`. -/
def f32_sqrt (x : F32) : F32 :=
  if F32.fLt x posZero then qNaN else sqrtIntrinsic x

/-- Surrogate for the natural logarithm of a positive finite value: scales the
floor base-2 logarithm of the value by a dyadic approximation of `ln 2`
(`710 / 2^10`).  It is exact at the points the spec pins (`ln 1 = +0.0`); no
claim under verification depends on its value anywhere else, because `ln`
only ever appears applied identically on both sides of the claims. -/
def lnSurrogate (x : F32) : F32 :=
  F32.setSign (decide ((nlog2 x.natMag : ℤ) - 149 < 0))
    (roundMagQ (((nlog2 x.natMag : ℤ) - 149).natAbs * 710 * 2 ^ 139) 1)

/-- Modelled from the spec (§4.4) and IEEE-754/C99: the `logf32` intrinsic
(outside this repository).  `NaN → NaN`, negative → NaN, `±0.0 → -infinity`,
`+infinity → +infinity`, `ln 1.0 = +0.0`; other positive finite values use
`lnSurrogate` (the intrinsic's accuracy there is implementation-defined and
no claim depends on it). -/
def f32_ln (x : F32) : F32 :=
  if x.is_nan then qNaN
  else if F32.fLt x posZero then qNaN
  else if F32.fEq x posZero then negInf
  else if x.is_infinite then posInf
  else lnSurrogate x

/-- Source `fn log`: `self.ln() / base.ln()`. -/
def f32_log (x base : F32) : F32 := f32_div (f32_ln x) (f32_ln base)

/-- The spec's words for `log` (§4.4): "derived, not a primitive — defined
exactly as `ln(x) / ln(base)`", written with this operation set's `ln` and
`/`. -/
def logSpecFormula (x base : F32) : F32 := f32_div (f32_ln x) (f32_ln base)

/-- Source `fn asinh`:
`if self == NEG_INFINITY { NEG_INFINITY } else { (self + ((self * self) + 1.0).sqrt()).ln() }`. -/
def f32_asinh (x : F32) : F32 :=
  if F32.fEq x negInf then negInf
  else f32_ln (f32_add x (f32_sqrt (f32_add (f32_mul x x) oneF)))

/-- The spec's words for the `asinh` formula (§4.5): `ln(x + sqrt(x*x + 1))`,
written with this operation set. -/
def asinhSpecFormula (x : F32) : F32 :=
  f32_ln (f32_add x (f32_sqrt (f32_add (f32_mul x x) oneF)))

/-- Source `fn acosh`:
`match self { x if x < 1.0 => NAN, x => (x + ((x * x) - 1.0).sqrt()).ln() }`. -/
def f32_acosh (x : F32) : F32 :=
  if F32.fLt x oneF then qNaN
  else f32_ln (f32_add x (f32_sqrt (f32_sub (f32_mul x x) oneF)))

/-- The spec's words for the `acosh` formula (§4.5): `ln(x + sqrt(x*x - 1))`,
written with this operation set. -/
def acoshSpecFormula (x : F32) : F32 :=
  f32_ln (f32_add x (f32_sqrt (f32_sub (f32_mul x x) oneF)))

/-- Source `fn is_sign_positive`, which delegates to
`core::num::Float::is_sign_positive` (outside this repository); the
contemporary libcore implemented it as `self > 0.0 || (1.0 / self) == INFINITY`,
which reproduces every doc example in the source, including
`!nan.is_sign_positive()`. -/
def is_sign_positive (x : F32) : Bool :=
  F32.fGt x posZero || F32.fEq (f32_div oneF x) posInf

/-- Source `fn is_sign_negative`, delegating to
`core::num::Float::is_sign_negative`, contemporarily implemented as
`self < 0.0 || (1.0 / self) == NEG_INFINITY`; reproduces every doc example in
the source, including `!nan.is_sign_negative()`. -/
def is_sign_negative (x : F32) : Bool :=
  F32.fLt x posZero || F32.fEq (f32_div oneF x) negInf


/-! ### Base-2 logarithm characterisation -/

theorem log2Aux_spec : ∀ (fuel n : ℕ), 0 < n → n < 2 ^ fuel →
    2 ^ log2Aux fuel n ≤ n ∧ n < 2 ^ (log2Aux fuel n + 1) := by
  intro fuel
  induction fuel with
  | zero =>
    intro n h1 h2
    simp only [pow_zero] at h2
    omega
  | succ f ih =>
    intro n h1 h2
    by_cases hn : n < 2
    · have hn1 : n = 1 := by omega
      subst hn1
      simp [log2Aux]
    · rw [log2Aux, if_neg hn]
      have h2' : n / 2 < 2 ^ f := by
        rw [Nat.div_lt_iff_lt_mul (by norm_num)]
        calc n < 2 ^ (f + 1) := h2
        _ = 2 ^ f * 2 := by rw [pow_succ]
      have h1' : 0 < n / 2 := Nat.div_pos (by omega) (by norm_num)
      obtain ⟨lo, hi⟩ := ih (n / 2) h1' h2'
      constructor
      · calc 2 ^ (log2Aux f (n / 2) + 1) = 2 ^ log2Aux f (n / 2) * 2 := by rw [pow_succ]
        _ ≤ n / 2 * 2 := by omega
        _ ≤ n := Nat.div_mul_le_self n 2
      · have hup : n < (n / 2) * 2 + 2 := by omega
        calc n < (n / 2) * 2 + 2 := hup
        _ ≤ (2 ^ (log2Aux f (n / 2) + 1) - 1) * 2 + 2 := by
              have : n / 2 + 1 ≤ 2 ^ (log2Aux f (n / 2) + 1) := hi
              have h3 : n / 2 ≤ 2 ^ (log2Aux f (n / 2) + 1) - 1 := by omega
              omega
        _ ≤ 2 ^ (log2Aux f (n / 2) + 1) * 2 := by
              have : 1 ≤ 2 ^ (log2Aux f (n / 2) + 1) := Nat.one_le_two_pow
              omega
        _ = 2 ^ (log2Aux f (n / 2) + 1 + 1) := (pow_succ 2 _).symm

theorem nlog2_spec (n : ℕ) (h1 : 0 < n) (h2 : n < 2 ^ 512) :
    2 ^ nlog2 n ≤ n ∧ n < 2 ^ (nlog2 n + 1) :=
  log2Aux_spec 512 n h1 h2

theorem nlog2_eq_of (n a : ℕ) (h1 : 2 ^ a ≤ n) (h2 : n < 2 ^ (a + 1))
    (h3 : n < 2 ^ 512) : nlog2 n = a := by
  have h0 : 0 < n := lt_of_lt_of_le (Nat.pos_pow_of_pos a (by norm_num)) h1
  obtain ⟨lo, hi⟩ := nlog2_spec n h0 h3
  rcases Nat.lt_trichotomy (nlog2 n) a with h | h | h
  · have : 2 ^ (nlog2 n + 1) ≤ 2 ^ a := Nat.pow_le_pow_right (by norm_num) (by omega)
    omega
  · exact h
  · have : 2 ^ (a + 1) ≤ 2 ^ nlog2 n := Nat.pow_le_pow_right (by norm_num) (by omega)
    omega

theorem nlog2_lt_of (n m : ℕ) (h0 : 0 < n) (h1 : n < 2 ^ m) (h2 : n < 2 ^ 512) :
    nlog2 n < m := by
  obtain ⟨lo, _⟩ := nlog2_spec n h0 h2
  by_contra h
  have : 2 ^ m ≤ 2 ^ nlog2 n := Nat.pow_le_pow_right (by norm_num) (by omega)
  omega

theorem nlog2_ge_of (n m : ℕ) (h1 : 2 ^ m ≤ n) (h2 : n < 2 ^ 512) :
    m ≤ nlog2 n := by
  have h0 : 0 < n := lt_of_lt_of_le (Nat.pos_pow_of_pos m (by norm_num)) h1
  obtain ⟨_, hi⟩ := nlog2_spec n h0 h2
  by_contra h
  have : 2 ^ (nlog2 n + 1) ≤ 2 ^ m := Nat.pow_le_pow_right (by norm_num) (by omega)
  omega

/-! ### Basic facts about patterns, magnitudes and classification -/

namespace F32

theorem is_finite_iff (x : F32) : x.is_finite = true ↔ x.ex.val ≤ 254 := by
  have := x.ex.isLt
  simp only [is_finite, decide_eq_true_eq]
  omega

theorem is_nan_false_of (x : F32) (h : x.ex.val ≤ 254) : x.is_nan = false := by
  simp only [is_nan, Bool.and_eq_false_iff, decide_eq_false_iff_not]
  omega

theorem is_infinite_false_of (x : F32) (h : x.ex.val ≤ 254) : x.is_infinite = false := by
  simp only [is_infinite, Bool.and_eq_false_iff, decide_eq_false_iff_not]
  omega

theorem natMag_subnormal (x : F32) (h : x.ex.val = 0) : x.natMag = x.frac.val := by
  simp [natMag, h]

theorem natMag_normal (x : F32) (h : 1 ≤ x.ex.val) :
    x.natMag = (8388608 + x.frac.val) * 2 ^ (x.ex.val - 1) := by
  simp [natMag]
  omega

theorem natMag_normal_lb (x : F32) (h : 1 ≤ x.ex.val) :
    8388608 * 2 ^ (x.ex.val - 1) ≤ x.natMag := by
  rw [natMag_normal x h]
  exact Nat.mul_le_mul_right _ (by omega)

theorem natMag_normal_ub (x : F32) (h : 1 ≤ x.ex.val) :
    x.natMag < 16777216 * 2 ^ (x.ex.val - 1) := by
  rw [natMag_normal x h]
  have := x.frac.isLt
  exact (Nat.mul_lt_mul_right (Nat.pos_pow_of_pos _ (by norm_num))).mpr (by omega)

theorem natMag_pos (x : F32) (h : 1 ≤ x.ex.val) : 0 < x.natMag := by
  calc 0 < 8388608 * 2 ^ (x.ex.val - 1) :=
        Nat.mul_pos (by norm_num) (Nat.pos_pow_of_pos _ (by norm_num))
  _ ≤ x.natMag := natMag_normal_lb x h

theorem natMag_le_max (x : F32) (h : x.ex.val ≤ 254) :
    x.natMag ≤ 16777215 * 2 ^ 253 := by
  by_cases h0 : x.ex.val = 0
  · rw [natMag_subnormal x h0]
    have := x.frac.isLt
    calc x.frac.val ≤ 8388608 := by omega
    _ ≤ 16777215 * 2 ^ 253 := by norm_num
  · rw [natMag_normal x (by omega)]
    have hf := x.frac.isLt
    calc (8388608 + x.frac.val) * 2 ^ (x.ex.val - 1) ≤ 16777215 * 2 ^ (x.ex.val - 1) :=
          Nat.mul_le_mul_right _ (by omega)
    _ ≤ 16777215 * 2 ^ 253 :=
          Nat.mul_le_mul_left _ (Nat.pow_le_pow_right (by norm_num) (by omega))

theorem natMag_lt_big (x : F32) (h : x.ex.val ≤ 254) : x.natMag < 2 ^ 512 := by
  have := natMag_le_max x h
  calc x.natMag ≤ 16777215 * 2 ^ 253 := this
  _ < 2 ^ 24 * 2 ^ 253 := by
        exact (Nat.mul_lt_mul_right (Nat.pos_pow_of_pos _ (by norm_num))).mpr (by norm_num)
  _ = 2 ^ (24 + 253) := by rw [← pow_add]
  _ ≤ 2 ^ 512 := Nat.pow_le_pow_right (by norm_num) (by norm_num)

theorem intVal_natAbs (x : F32) : x.intVal.natAbs = x.natMag := by
  cases hs : x.sign <;> simp [intVal, hs]

theorem intVal_eq_zero_iff (x : F32) : x.intVal = 0 ↔ x.natMag = 0 := by
  cases hs : x.sign <;> simp [intVal, hs]

theorem intVal_neg' (x : F32) : x.neg.intVal = -x.intVal := by
  cases hs : x.sign <;> simp [intVal, neg, hs, natMag]

theorem natMag_mk_sign (b : Bool) (x : F32) :
    (F32.mk b x.ex x.frac).natMag = x.natMag := rfl

theorem intVal_of_sign_false (x : F32) (h : x.sign = false) :
    x.intVal = (x.natMag : ℤ) := by simp [intVal, h]

theorem intVal_of_sign_true (x : F32) (h : x.sign = true) :
    x.intVal = -(x.natMag : ℤ) := by simp [intVal, h]

theorem setSign_sign (b : Bool) (x : F32) : (setSign b x).sign = b := rfl

theorem setSign_natMag (b : Bool) (x : F32) : (setSign b x).natMag = x.natMag := rfl

theorem setSign_ex (b : Bool) (x : F32) : (setSign b x).ex = x.ex := rfl

theorem mag_lt_mag_of_lt (fx fy a b : ℕ) (hfx : fx < 8388608) (hab : a < b) :
    (8388608 + fx) * 2 ^ a < (8388608 + fy) * 2 ^ b := by
  calc (8388608 + fx) * 2 ^ a < 16777216 * 2 ^ a :=
        (Nat.mul_lt_mul_right (Nat.pos_pow_of_pos _ (by norm_num))).mpr (by omega)
  _ = 8388608 * 2 ^ (a + 1) := by rw [pow_succ]; ring
  _ ≤ 8388608 * 2 ^ b := Nat.mul_le_mul_left _ (Nat.pow_le_pow_right (by norm_num) (by omega))
  _ ≤ (8388608 + fy) * 2 ^ b := Nat.mul_le_mul_right _ (by omega)

theorem eq_of_natMag (x y : F32) (hx : x.ex.val ≤ 254) (hy : y.ex.val ≤ 254)
    (hs : x.sign = y.sign) (h : x.natMag = y.natMag) : x = y := by
  have hexeq : x.ex.val = y.ex.val := by
    by_cases hx0 : x.ex.val = 0 <;> by_cases hy0 : y.ex.val = 0
    · omega
    · exfalso
      have h1 : x.natMag < 8388608 := by
        rw [natMag_subnormal x hx0]; exact x.frac.isLt
      have h2 : 8388608 * 2 ^ (y.ex.val - 1) ≤ y.natMag := natMag_normal_lb y (by omega)
      have h3 : 8388608 ≤ 8388608 * 2 ^ (y.ex.val - 1) :=
        Nat.le_mul_of_pos_right _ (Nat.pos_pow_of_pos _ (by norm_num))
      omega
    · exfalso
      have h1 : y.natMag < 8388608 := by
        rw [natMag_subnormal y hy0]; exact y.frac.isLt
      have h2 : 8388608 * 2 ^ (x.ex.val - 1) ≤ x.natMag := natMag_normal_lb x (by omega)
      have h3 : 8388608 ≤ 8388608 * 2 ^ (x.ex.val - 1) :=
        Nat.le_mul_of_pos_right _ (Nat.pos_pow_of_pos _ (by norm_num))
      omega
    · rcases Nat.lt_trichotomy x.ex.val y.ex.val with hlt | heq | hgt
      · exfalso
        rw [natMag_normal x (by omega), natMag_normal y (by omega)] at h
        have := mag_lt_mag_of_lt x.frac.val y.frac.val (x.ex.val - 1) (y.ex.val - 1)
          x.frac.isLt (by omega)
        omega
      · exact heq
      · exfalso
        rw [natMag_normal x (by omega), natMag_normal y (by omega)] at h
        have := mag_lt_mag_of_lt y.frac.val x.frac.val (y.ex.val - 1) (x.ex.val - 1)
          y.frac.isLt (by omega)
        omega
  have hfrac : x.frac.val = y.frac.val := by
    by_cases hx0 : x.ex.val = 0
    · have hy0 : y.ex.val = 0 := by omega
      rw [natMag_subnormal x hx0, natMag_subnormal y hy0] at h
      exact h
    · rw [natMag_normal x (by omega), natMag_normal y (by omega), hexeq] at h
      have hpos : 0 < 2 ^ (y.ex.val - 1) := Nat.pos_pow_of_pos _ (by norm_num)
      have := Nat.eq_of_mul_eq_mul_right hpos h
      omega
  cases x with
  | mk xs xe xf =>
    cases y with
    | mk ys ye yf =>
      simp only at hs hexeq hfrac
      simp [hs, Fin.ext_iff, hexeq, hfrac]

end F32

/-! ### Exactness of the rounding pipeline on representable values -/

theorem roundNE_of_dvd (a b : ℕ) (hb : 0 < b) (h : b ∣ a) : roundNE a b = a / b := by
  have hmod : a % b = 0 := Nat.mod_eq_zero_of_dvd h
  simp only [roundNE, hmod]
  rw [if_neg]
  omega

theorem encodeMag_eq_low (n e : ℕ) (h1 : n ≠ 0) (h2 : n < 8388608) :
    encodeMag n e = ⟨false, 0, ⟨n, h2⟩⟩ := by
  rw [encodeMag, if_neg h1, dif_pos h2]

theorem encodeMag_eq_normal (n e : ℕ) (h1 : 8388608 ≤ n) (h2 : n < 16777216)
    (h3 : e ≤ 253) :
    encodeMag n e = ⟨false, ⟨e + 1, by omega⟩, ⟨n - 8388608, by omega⟩⟩ := by
  rw [encodeMag, if_neg (by omega), dif_neg (by omega)]
  simp only [if_neg (show ¬n = 16777216 by omega)]
  rw [dif_pos (by omega), dif_pos (by omega)]

theorem round_exact (N : ℕ) (h0 : 0 < N) (hmax : N ≤ 16777215 * 2 ^ 253)
    (hdvd : 2 ^ (nlog2 N - 23) ∣ N) :
    (roundMagQ N 1).sign = false ∧ (roundMagQ N 1).ex.val ≤ 254 ∧
      (roundMagQ N 1).natMag = N := by
  have hbig : N < 2 ^ 512 := by
    calc N ≤ 16777215 * 2 ^ 253 := hmax
    _ < 2 ^ 24 * 2 ^ 253 := by
          exact (Nat.mul_lt_mul_right (Nat.pos_pow_of_pos _ (by norm_num))).mpr (by norm_num)
    _ = 2 ^ (24 + 253) := by rw [← pow_add]
    _ ≤ 2 ^ 512 := Nat.pow_le_pow_right (by norm_num) (by norm_num)
  have hone : roundNE N 1 = N := by
    have := roundNE_of_dvd N 1 (by norm_num) (one_dvd N)
    simpa using this
  by_cases hN : N < 16777216
  · rw [roundMagQ, Nat.div_one, if_pos hN, hone]
    by_cases hlow : N < 8388608
    · rw [encodeMag_eq_low N 0 (by omega) hlow]
      refine ⟨rfl, by norm_num, ?_⟩
      simp [F32.natMag]
    · rw [encodeMag_eq_normal N 0 (by omega) hN (by norm_num)]
      refine ⟨rfl, by norm_num, ?_⟩
      simp only [F32.natMag]
      norm_num
      omega
  · rw [roundMagQ, Nat.div_one, if_neg hN]
    set L := nlog2 N with hL
    obtain ⟨hlo, hhi⟩ := nlog2_spec N h0 hbig
    have hL24 : 24 ≤ L := nlog2_ge_of N 24 (by omega) hbig
    have hs1 : 23 + (L - 23) = L := by omega
    have hdvd' : 2 ^ (L - 23) ∣ N := hdvd
    have hdiv : roundNE N (1 * 2 ^ (L - 23)) = N / 2 ^ (L - 23) := by
      rw [one_mul]
      exact roundNE_of_dvd N _ (Nat.pos_pow_of_pos _ (by norm_num)) hdvd'
    rw [hdiv]
    set n0 := N / 2 ^ (L - 23) with hn0
    have hmul : n0 * 2 ^ (L - 23) = N := Nat.div_mul_cancel hdvd'
    have hn0lb : 8388608 ≤ n0 := by
      rw [hn0, Nat.le_div_iff_mul_le (Nat.pos_pow_of_pos _ (by norm_num))]
      calc (8388608 : ℕ) * 2 ^ (L - 23) = 2 ^ 23 * 2 ^ (L - 23) := by norm_num
      _ = 2 ^ L := by rw [← pow_add, hs1]
      _ ≤ N := hlo
    have hn0ub : n0 < 16777216 := by
      rw [hn0, Nat.div_lt_iff_lt_mul (Nat.pos_pow_of_pos _ (by norm_num))]
      calc N < 2 ^ (L + 1) := hhi
      _ = 2 ^ 24 * 2 ^ (L - 23) := by rw [← pow_add]; congr 1; omega
      _ = 16777216 * 2 ^ (L - 23) := by norm_num
    have hsle : L - 23 ≤ 253 := by
      by_contra hcon
      have h254 : 254 ≤ L - 23 := by omega
      have : 2 ^ 277 ≤ 2 ^ L := Nat.pow_le_pow_right (by norm_num) (by omega)
      have hNbig : 2 ^ 277 ≤ N := le_trans this hlo
      have : (16777215 : ℕ) * 2 ^ 253 < 2 ^ 277 := by
        calc (16777215 : ℕ) * 2 ^ 253 < 2 ^ 24 * 2 ^ 253 := by
              exact (Nat.mul_lt_mul_right (Nat.pos_pow_of_pos _ (by norm_num))).mpr
                (by norm_num)
        _ = 2 ^ 277 := by rw [← pow_add]
      omega
    rw [encodeMag_eq_normal n0 (L - 23) hn0lb hn0ub hsle]
    refine ⟨rfl, by show L - 23 + 1 ≤ 254; omega, ?_⟩
    show (if L - 23 + 1 = 0 then n0 - 8388608
      else (8388608 + (n0 - 8388608)) * 2 ^ (L - 23 + 1 - 1)) = N
    rw [if_neg (show ¬(L - 23 + 1 = 0) by omega)]
    rw [show 8388608 + (n0 - 8388608) = n0 by omega]
    rw [show L - 23 + 1 - 1 = L - 23 by omega]
    exact hmul

theorem natMag_dvd (x : F32) (hx : x.ex.val ≤ 254) :
    2 ^ (nlog2 x.natMag - 23) ∣ x.natMag := by
  by_cases h0 : x.ex.val = 0
  · have hsub : x.natMag = x.frac.val := F32.natMag_subnormal x h0
    by_cases hz : x.frac.val = 0
    · simp [hsub, hz]
    · have hlt : nlog2 x.natMag < 23 := by
        rw [hsub]
        exact nlog2_lt_of _ 23 (by omega) (by exact_mod_cast x.frac.isLt) (by
          have := x.frac.isLt; omega)
      rw [show nlog2 x.natMag - 23 = 0 by omega]
      exact one_dvd _
  · have hn : x.natMag = (8388608 + x.frac.val) * 2 ^ (x.ex.val - 1) :=
      F32.natMag_normal x (by omega)
    have hlog : nlog2 x.natMag = 23 + (x.ex.val - 1) := by
      apply nlog2_eq_of
      · calc 2 ^ (23 + (x.ex.val - 1)) = 2 ^ 23 * 2 ^ (x.ex.val - 1) := by rw [pow_add]
        _ = 8388608 * 2 ^ (x.ex.val - 1) := by norm_num
        _ ≤ x.natMag := F32.natMag_normal_lb x (by omega)
      · calc x.natMag < 16777216 * 2 ^ (x.ex.val - 1) := F32.natMag_normal_ub x (by omega)
        _ = 2 ^ 24 * 2 ^ (x.ex.val - 1) := by norm_num
        _ = 2 ^ (23 + (x.ex.val - 1) + 1) := by rw [← pow_add]; congr 1; omega
      · exact F32.natMag_lt_big x hx
    rw [hlog, hn]
    rw [show 23 + (x.ex.val - 1) - 23 = x.ex.val - 1 by omega]
    exact dvd_mul_left _ _

theorem f32_add_exact (x y z : F32) (hx : x.ex.val ≤ 254) (hy : y.ex.val ≤ 254)
    (hz : z.ex.val ≤ 254) (hS : x.intVal + y.intVal = z.intVal)
    (hnz : z.intVal ≠ 0) : f32_add x y = z := by
  rw [f32_add]
  rw [F32.is_nan_false_of x hx, F32.is_nan_false_of y hy,
    F32.is_infinite_false_of x hx, F32.is_infinite_false_of y hy]
  simp only [Bool.or_self]
  rw [if_neg Bool.false_ne_true, if_neg Bool.false_ne_true, if_neg Bool.false_ne_true]
  rw [hS, if_neg hnz]
  have hmagpos : 0 < z.natMag := by
    rcases Nat.eq_zero_or_pos z.natMag with h | h
    · exact absurd ((F32.intVal_eq_zero_iff z).mpr h) hnz
    · exact h
  have habs : z.intVal.natAbs = z.natMag := F32.intVal_natAbs z
  rw [habs]
  obtain ⟨hsgn, hexle, hmag⟩ :=
    round_exact z.natMag hmagpos (F32.natMag_le_max z hz) (natMag_dvd z hz)
  have hsign_eq : decide (z.intVal < 0) = z.sign := by
    cases hzs : z.sign
    · rw [F32.intVal_of_sign_false z hzs]
      simp
    · rw [F32.intVal_of_sign_true z hzs]
      simp
      exact_mod_cast hmagpos
  rw [hsign_eq]
  have hpz : roundMagQ z.natMag 1 = F32.mk false z.ex z.frac := by
    apply F32.eq_of_natMag
    · exact hexle
    · exact hz
    · rw [hsgn]
    · rw [hmag]
      rfl
  rw [hpz]
  cases z
  rfl

/-! ### Helper facts: signs, zeros, trunc branches, finite addition -/

theorem F32.intVal_setSign (b : Bool) (p : F32) :
    (F32.setSign b p).intVal = if b then -(p.natMag : ℤ) else (p.natMag : ℤ) := by
  have h1 : (F32.setSign b p).sign = b := rfl
  have h2 : (F32.setSign b p).natMag = p.natMag := rfl
  rw [F32.intVal, h1, h2]

theorem F32.neg_ex_val (x : F32) : (F32.neg x).ex.val = x.ex.val := rfl

theorem F32.neg_sign (x : F32) : (F32.neg x).sign = !x.sign := rfl

theorem intVal_signedZero (b : Bool) : (F32.mk b 0 0).intVal = 0 := by
  cases b <;> decide

theorem intVal_posZero : posZero.intVal = 0 := by decide

theorem posZero_ex_le : posZero.ex.val ≤ 254 := by decide

theorem signedZero_ex_le (b : Bool) : (F32.mk b 0 0).ex.val ≤ 254 := by
  cases b <;> decide

theorem f32_add_finite (x y : F32) (hx : x.ex.val ≤ 254) (hy : y.ex.val ≤ 254)
    (hnz : x.intVal + y.intVal ≠ 0) :
    f32_add x y = F32.setSign (decide (x.intVal + y.intVal < 0))
      (roundMagQ (x.intVal + y.intVal).natAbs 1) := by
  rw [f32_add, F32.is_nan_false_of x hx, F32.is_nan_false_of y hy,
    F32.is_infinite_false_of x hx, F32.is_infinite_false_of y hy]
  simp only [Bool.or_self]
  rw [if_neg Bool.false_ne_true, if_neg Bool.false_ne_true, if_neg Bool.false_ne_true,
    if_neg hnz]

theorem f32_sub_self (x : F32) (hx : x.ex.val ≤ 254) : f32_sub x x = posZero := by
  rw [f32_sub, f32_add]
  have hnx : (F32.neg x).ex.val ≤ 254 := by rw [F32.neg_ex_val]; exact hx
  rw [F32.is_nan_false_of x hx, F32.is_nan_false_of _ hnx,
    F32.is_infinite_false_of x hx, F32.is_infinite_false_of _ hnx]
  simp only [Bool.or_self]
  rw [if_neg Bool.false_ne_true, if_neg Bool.false_ne_true, if_neg Bool.false_ne_true]
  rw [F32.intVal_neg', if_pos (by ring)]
  rw [F32.neg_sign, Bool.and_not_self]
  rw [if_neg Bool.false_ne_true]

theorem f32_trunc_high (x : F32) (h : 150 ≤ x.ex.val) : f32_trunc x = x := by
  rw [f32_trunc, if_pos h]

theorem f32_trunc_low (x : F32) (h0 : ¬150 ≤ x.ex.val) (h1 : x.ex.val ≤ 126) :
    f32_trunc x = ⟨x.sign, 0, 0⟩ := by
  rw [f32_trunc, if_neg h0, if_pos h1]

theorem f32_trunc_mid_facts (x : F32) (h1 : 127 ≤ x.ex.val) (h2 : x.ex.val ≤ 149) :
    (f32_trunc x).sign = x.sign ∧ (f32_trunc x).ex = x.ex ∧
      (f32_trunc x).frac.val =
        x.frac.val / 2 ^ (150 - x.ex.val) * 2 ^ (150 - x.ex.val) := by
  rw [f32_trunc, if_neg (by omega), if_neg (by omega)]
  exact ⟨rfl, rfl, rfl⟩

/-- C3 (amended): for every finite f32 value x other than -0.0,
fract(x) + trunc(x) equals x exactly, with the identical bit pattern
(at x = -0.0 the sum is +0.0: numerically equal but a different pattern). -/
theorem C3_fract_trunc_amended (x : F32) (h1 : x.is_finite = true)
    (h2 : x ≠ negZero) : f32_add (f32_fract x) (f32_trunc x) = x := by
  have hx : x.ex.val ≤ 254 := (F32.is_finite_iff x).mp h1
  by_cases hhi : 150 ≤ x.ex.val
  · -- x is integral (or large): trunc x = x, fract x = +0.0
    rw [f32_fract, f32_trunc_high x hhi, f32_sub_self x hx]
    apply f32_add_exact posZero x x posZero_ex_le hx hx
    · rw [intVal_posZero, zero_add]
    · intro hcon
      have h0 := (F32.intVal_eq_zero_iff x).mp hcon
      have := F32.natMag_pos x (by omega)
      omega
  · by_cases hlo : x.ex.val ≤ 126
    · -- |x| < 1: trunc x is a zero of x's sign
      rw [f32_fract, f32_trunc_low x hhi hlo]
      by_cases hz : x.natMag = 0
      · -- x is a zero; x ≠ -0.0, so x = +0.0
        have hex0 : x.ex.val = 0 := by
          by_contra hcon
          have := F32.natMag_pos x (by omega)
          omega
        have hf0 : x.frac.val = 0 := by
          have := F32.natMag_subnormal x hex0
          omega
        have hsgn : x.sign = false := by
          cases hs : x.sign
          · rfl
          · exfalso
            apply h2
            cases x with
            | mk xs xe xf =>
              simp only at hs hex0 hf0
              simp [negZero, hs, Fin.ext_iff, hex0, hf0]
        have hxeq : x = posZero := by
          cases x with
          | mk xs xe xf =>
            simp only at hsgn hex0 hf0
            simp [posZero, hsgn, Fin.ext_iff, hex0, hf0]
        subst hxeq
        decide
      · -- small nonzero x: x - (±0.0) = x and x + (±0.0) = x, exactly
        have hznm : (F32.mk x.sign 0 0).intVal = 0 := intVal_signedZero x.sign
        have hxnz : x.intVal ≠ 0 := fun hcon =>
          hz ((F32.intVal_eq_zero_iff x).mp hcon)
        have step1 : f32_sub x ⟨x.sign, 0, 0⟩ = x := by
          rw [f32_sub]
          apply f32_add_exact x _ x hx
            (by rw [F32.neg_ex_val]; exact signedZero_ex_le x.sign) hx
          · rw [F32.intVal_neg', hznm]
            ring
          · exact hxnz
        rw [step1]
        apply f32_add_exact x _ x hx (signedZero_ex_le x.sign) hx
        · rw [hznm]
          ring
        · exact hxnz
    · -- 1 ≤ |x| < 2^23: the genuinely inexact-looking range, where the
      -- fraction splits as q * 2^d + r and the difference r * 2^(ex-1) is
      -- exactly representable
      have hmid1 : 127 ≤ x.ex.val := by omega
      have hmid2 : x.ex.val ≤ 149 := by omega
      obtain ⟨hts, hte, htf⟩ := f32_trunc_mid_facts x hmid1 hmid2
      set t := f32_trunc x with ht
      have htex : t.ex.val ≤ 254 := by rw [hte]; exact hx
      have htex1 : 1 ≤ t.ex.val := by rw [hte]; omega
      have hxex1 : 1 ≤ x.ex.val := by omega
      set d := 150 - x.ex.val with hd
      set E := x.ex.val - 1 with hE
      set q := x.frac.val / 2 ^ d with hq
      set r := x.frac.val % 2 ^ d with hr
      have hdecomp : q * 2 ^ d + r = x.frac.val := Nat.div_add_mod' _ _
      have hrlt : r < 2 ^ d := Nat.mod_lt _ (Nat.pos_pow_of_pos _ (by norm_num))
      have hd23 : d ≤ 23 := by omega
      have hnmx : x.natMag = (8388608 + x.frac.val) * 2 ^ E :=
        F32.natMag_normal x hxex1
      have hnmt : t.natMag = (8388608 + q * 2 ^ d) * 2 ^ E := by
        rw [F32.natMag_normal t htex1, htf, hte]
      have hxmagpos : x.intVal ≠ 0 := by
        intro hcon
        have h0 := (F32.intVal_eq_zero_iff x).mp hcon
        have := F32.natMag_pos x hxex1
        omega
      by_cases hr0 : r = 0
      · -- the fraction bits below the point are zero: trunc x = x
        have htfx : t.frac.val = x.frac.val := by
          rw [htf]
          omega
        have htx : t = x := by
          apply F32.eq_of_natMag t x htex hx (by rw [hts])
          rw [hnmt, hnmx]
          have : q * 2 ^ d = x.frac.val := by omega
          rw [this]
        rw [f32_fract, ← ht, htx, f32_sub_self x hx]
        apply f32_add_exact posZero x x posZero_ex_le hx hx
        · rw [intVal_posZero, zero_add]
        · exact hxmagpos
      · -- nonzero fractional part r: x - trunc x is exactly r * 2^E
        have hrpos : 0 < r := by omega
        have hmagdiff : x.natMag = t.natMag + r * 2 ^ E := by
          rw [hnmx, hnmt, ← hdecomp]
          ring
        have hVpos : 0 < r * 2 ^ E :=
          Nat.mul_pos hrpos (Nat.pos_pow_of_pos _ (by norm_num))
        have hVsmall : r * 2 ^ E < 2 ^ 149 := by
          calc r * 2 ^ E < 2 ^ d * 2 ^ E :=
                (Nat.mul_lt_mul_right (Nat.pos_pow_of_pos _ (by norm_num))).mpr hrlt
          _ = 2 ^ (d + E) := by rw [← pow_add]
          _ ≤ 2 ^ 149 := Nat.pow_le_pow_right (by norm_num) (by omega)
        have hVmax : r * 2 ^ E ≤ 16777215 * 2 ^ 253 := by
          calc r * 2 ^ E ≤ 2 ^ 149 := le_of_lt hVsmall
          _ ≤ 2 ^ 253 := Nat.pow_le_pow_right (by norm_num) (by norm_num)
          _ ≤ 16777215 * 2 ^ 253 := Nat.le_mul_of_pos_left _ (by norm_num)
        have hVbig : r * 2 ^ E < 2 ^ 512 := by
          calc r * 2 ^ E < 2 ^ 149 := hVsmall
          _ ≤ 2 ^ 512 := Nat.pow_le_pow_right (by norm_num) (by norm_num)
        have hVdvd : 2 ^ (nlog2 (r * 2 ^ E) - 23) ∣ r * 2 ^ E := by
          have hj : nlog2 r < d := nlog2_lt_of r d hrpos hrlt (by
            calc r < 2 ^ d := hrlt
            _ ≤ 2 ^ 512 := Nat.pow_le_pow_right (by norm_num) (by omega))
          have hlogV : nlog2 (r * 2 ^ E) = nlog2 r + E := by
            obtain ⟨rlo, rhi⟩ := nlog2_spec r hrpos (by
              calc r < 2 ^ d := hrlt
              _ ≤ 2 ^ 512 := Nat.pow_le_pow_right (by norm_num) (by omega))
            apply nlog2_eq_of
            · calc 2 ^ (nlog2 r + E) = 2 ^ nlog2 r * 2 ^ E := by rw [pow_add]
              _ ≤ r * 2 ^ E := Nat.mul_le_mul_right _ rlo
            · calc r * 2 ^ E < 2 ^ (nlog2 r + 1) * 2 ^ E :=
                    (Nat.mul_lt_mul_right (Nat.pos_pow_of_pos _ (by norm_num))).mpr rhi
              _ = 2 ^ (nlog2 r + 1 + E) := by rw [← pow_add]
              _ = 2 ^ (nlog2 r + E + 1) := by congr 1; omega
            · exact hVbig
          rw [hlogV]
          exact dvd_trans (pow_dvd_pow 2 (by omega)) (dvd_mul_left _ _)
        obtain ⟨hpsgn, hpex, hpmag⟩ := round_exact (r * 2 ^ E) hVpos hVmax hVdvd
        set p := roundMagQ (r * 2 ^ E) 1 with hp
        -- the subtraction x - t produces the pattern p with x's sign
        have hsub : f32_fract x = F32.setSign x.sign p := by
          rw [f32_fract, ← ht, f32_sub]
          have hSval : x.intVal + (F32.neg t).intVal =
              (if x.sign then -((r * 2 ^ E : ℕ) : ℤ) else ((r * 2 ^ E : ℕ) : ℤ)) := by
            rw [F32.intVal_neg']
            cases hxs : x.sign
            · rw [F32.intVal_of_sign_false x hxs,
                F32.intVal_of_sign_false t (by rw [hts, hxs])]
              simp only [if_false, Bool.false_eq_true]
              rw [hmagdiff]
              push_cast
              ring
            · rw [F32.intVal_of_sign_true x hxs,
                F32.intVal_of_sign_true t (by rw [hts, hxs])]
              simp only [if_true]
              rw [hmagdiff]
              push_cast
              ring
          have hSnz : x.intVal + (F32.neg t).intVal ≠ 0 := by
            rw [hSval]
            cases hxs : x.sign <;> simp <;> omega
          rw [f32_add_finite x (F32.neg t) hx (by rw [F32.neg_ex_val]; exact htex) hSnz]
          rw [hSval]
          cases hxs : x.sign
          · simp only [if_false, Bool.false_eq_true]
            have hnn : ¬(((r * 2 ^ E : ℕ) : ℤ) < 0) := by omega
            have habs1 : ((r * 2 ^ E : ℕ) : ℤ).natAbs = r * 2 ^ E := Int.natAbs_ofNat _
            rw [decide_eq_false hnn, habs1, hp]
          · simp only [if_true]
            have hneg : (-((r * 2 ^ E : ℕ) : ℤ)) < 0 := by
              have hc : (0 : ℤ) < ((r * 2 ^ E : ℕ) : ℤ) := by exact_mod_cast hVpos
              omega
            have habs2 : (-((r * 2 ^ E : ℕ) : ℤ)).natAbs = r * 2 ^ E := by
              rw [Int.natAbs_neg, Int.natAbs_ofNat]
            rw [decide_eq_true hneg, habs2, hp]
        rw [hsub]
        -- and adding t back is again exact, giving x itself
        apply f32_add_exact (F32.setSign x.sign p) t x (by
          have : (F32.setSign x.sign p).ex = p.ex := rfl
          rw [show (F32.setSign x.sign p).ex.val = p.ex.val from rfl]
          exact hpex) htex hx
        · rw [F32.intVal_setSign]
          cases hxs : x.sign
          · simp only [if_false, Bool.false_eq_true]
            rw [F32.intVal_of_sign_false t (by rw [hts, hxs]),
              F32.intVal_of_sign_false x hxs, hpmag, hmagdiff]
            push_cast
            ring
          · simp only [if_true]
            rw [F32.intVal_of_sign_true t (by rw [hts, hxs]),
              F32.intVal_of_sign_true x hxs, hpmag, hmagdiff]
            push_cast
            ring
        · exact hxmagpos

/-! ### Helper facts for the sign predicates and comparisons -/

theorem encodeMag_sign_false (n e : ℕ) : (encodeMag n e).sign = false := by
  simp only [encodeMag]
  repeat' split
  all_goals rfl

theorem encodeMag_not_nan (n e : ℕ) : (encodeMag n e).is_nan = false := by
  simp only [encodeMag]
  repeat' split
  all_goals simp [F32.is_nan, posZero, posInf]
  all_goals omega

theorem roundMagQ_sign_false (a b : ℕ) : (roundMagQ a b).sign = false := by
  rw [roundMagQ]
  split <;> exact encodeMag_sign_false _ _

theorem roundMagQ_not_nan (a b : ℕ) : (roundMagQ a b).is_nan = false := by
  rw [roundMagQ]
  split <;> exact encodeMag_not_nan _ _

theorem F32.fGt_false_of_nan_left (x y : F32) (h : x.is_nan = true) :
    F32.fGt x y = false := by simp [F32.fGt, h]

theorem F32.fLt_false_of_nan_left (x y : F32) (h : x.is_nan = true) :
    F32.fLt x y = false := by simp [F32.fLt, h]

theorem F32.fEq_false_of_nan_left (x y : F32) (h : x.is_nan = true) :
    F32.fEq x y = false := by simp [F32.fEq, h]

theorem intVal_posInf : posInf.intVal = 8388608 * 2 ^ 254 := by decide

theorem intVal_negInf : negInf.intVal = -(8388608 * 2 ^ 254) := by decide

theorem F32.fEq_posInf_of_sign_true (q : F32) (hq : q.sign = true) :
    F32.fEq q posInf = false := by
  by_cases hn : q.is_nan = true
  · exact F32.fEq_false_of_nan_left q posInf hn
  · have hle : q.intVal ≤ 0 := by
      rw [F32.intVal_of_sign_true q hq]
      omega
    have hne : q.intVal ≠ posInf.intVal := by
      rw [intVal_posInf]
      omega
    simp [F32.fEq, hne]

theorem F32.fEq_negInf_of_sign_false (q : F32) (hq : q.sign = false) :
    F32.fEq q negInf = false := by
  by_cases hn : q.is_nan = true
  · exact F32.fEq_false_of_nan_left q negInf hn
  · have hle : 0 ≤ q.intVal := by
      rw [F32.intVal_of_sign_false q hq]
      omega
    have hne : q.intVal ≠ negInf.intVal := by
      rw [intVal_negInf]
      omega
    simp [F32.fEq, hne]

theorem f32_div_one_finite (x : F32) (hx : x.ex.val ≤ 254) (hnz : x.natMag ≠ 0) :
    f32_div oneF x = F32.setSign (oneF.sign != x.sign)
      (roundMagQ (oneF.natMag * 2 ^ 149) x.natMag) := by
  rw [f32_div]
  rw [show oneF.is_nan = false from rfl, F32.is_nan_false_of x hx,
    show oneF.is_infinite = false from rfl, F32.is_infinite_false_of x hx]
  simp only [Bool.or_self]
  rw [if_neg Bool.false_ne_true, if_neg Bool.false_ne_true, if_neg Bool.false_ne_true,
    if_neg hnz]

theorem F32.eq_mk_of_fields (x : F32) (b : Bool) (e f : ℕ) (he : e < 256)
    (hf : f < 8388608) (h1 : x.sign = b) (h2 : x.ex.val = e) (h3 : x.frac.val = f) :
    x = ⟨b, ⟨e, he⟩, ⟨f, hf⟩⟩ := by
  cases x with
  | mk xs xe xf =>
    simp only at h1 h2 h3
    simp [h1, Fin.ext_iff, h2, h3]

/-- C2 (amended): for every non-NaN bit pattern, exactly one of
is_sign_positive and is_sign_negative is true and the true one reports the
literal sign bit; for every NaN bit pattern both predicates are false (the
behaviour the source's own doc examples assert). -/
theorem C2_sign_predicates_amended (x : F32) :
    is_sign_positive x = (!x.sign && !x.is_nan) ∧
      is_sign_negative x = (x.sign && !x.is_nan) := by
  by_cases hnan : x.is_nan = true
  · have hdiv : f32_div oneF x = qNaN := by
      rw [f32_div, show oneF.is_nan = false from rfl, hnan]
      simp only [Bool.false_or]
      simp
    rw [is_sign_positive, is_sign_negative, hdiv]
    rw [F32.fGt_false_of_nan_left x posZero hnan,
      F32.fLt_false_of_nan_left x posZero hnan,
      F32.fEq_false_of_nan_left qNaN posInf (by decide),
      F32.fEq_false_of_nan_left qNaN negInf (by decide), hnan]
    simp
  · have hnf : x.is_nan = false := by
      cases h : x.is_nan
      · rfl
      · exact absurd h hnan
    by_cases hinf : x.ex.val = 255
    · have hf0 : x.frac.val = 0 := by
        by_contra hc
        apply hnan
        simp [F32.is_nan, hinf, hc]
      cases hs : x.sign
      · rw [F32.eq_mk_of_fields x false 255 0 (by norm_num) (by norm_num) hs hinf hf0]
        decide
      · rw [F32.eq_mk_of_fields x true 255 0 (by norm_num) (by norm_num) hs hinf hf0]
        decide
    · have hx : x.ex.val ≤ 254 := by
        have := x.ex.isLt
        omega
      by_cases hz : x.natMag = 0
      · have hex0 : x.ex.val = 0 := by
          by_contra hcon
          have := F32.natMag_pos x (by omega)
          omega
        have hf0 : x.frac.val = 0 := by
          have := F32.natMag_subnormal x hex0
          omega
        cases hs : x.sign
        · rw [F32.eq_mk_of_fields x false 0 0 (by norm_num) (by norm_num) hs hex0 hf0]
          decide
        · rw [F32.eq_mk_of_fields x true 0 0 (by norm_num) (by norm_num) hs hex0 hf0]
          decide
      · rw [is_sign_positive, is_sign_negative, f32_div_one_finite x hx hz]
        have hmagpos : 0 < x.natMag := Nat.pos_of_ne_zero hz
        cases hs : x.sign
        · have hgt : F32.fGt x posZero = true := by
            simp only [F32.fGt, hnf, show posZero.is_nan = false from rfl,
              Bool.not_false, Bool.true_and]
            rw [intVal_posZero, F32.intVal_of_sign_false x hs]
            simp
            exact_mod_cast hmagpos
          have hlt : F32.fLt x posZero = false := by
            simp only [F32.fLt, hnf, show posZero.is_nan = false from rfl,
              Bool.not_false, Bool.true_and]
            rw [intVal_posZero, F32.intVal_of_sign_false x hs]
            simp
          have hbne : (oneF.sign != false) = false := rfl
          rw [hgt, hlt, hbne, hnf]
          refine ⟨by simp, ?_⟩
          rw [F32.fEq_negInf_of_sign_false _ (F32.setSign_sign false _)]
          simp
        · have hgt : F32.fGt x posZero = false := by
            simp only [F32.fGt, hnf, show posZero.is_nan = false from rfl,
              Bool.not_false, Bool.true_and]
            rw [intVal_posZero, F32.intVal_of_sign_true x hs]
            simp
          have hlt : F32.fLt x posZero = true := by
            simp only [F32.fLt, hnf, show posZero.is_nan = false from rfl,
              Bool.not_false, Bool.true_and]
            rw [intVal_posZero, F32.intVal_of_sign_true x hs]
            simp
            exact_mod_cast hmagpos
          have hbne : (oneF.sign != true) = true := rfl
          rw [hgt, hlt, hbne, hnf]
          refine ⟨?_, by simp⟩
          rw [F32.fEq_posInf_of_sign_true _ (F32.setSign_sign true _)]
          simp

/-! ### Finiteness and sign of the square-root model -/

theorem encodeMag_ex_le (n e : ℕ) (hn : n ≤ 16777216) (he : e ≤ 252) :
    (encodeMag n e).ex.val ≤ 254 := by
  by_cases h0 : n = 0
  · subst h0
    rw [encodeMag, if_pos rfl]
    decide
  · by_cases h1 : n < 8388608
    · rw [encodeMag_eq_low n e h0 h1]
      show (0 : ℕ) ≤ 254
      norm_num
    · by_cases h2 : n = 16777216
      · subst h2
        rw [encodeMag, if_neg (by norm_num), dif_neg (by norm_num)]
        simp only [eq_self_iff_true, if_true]
        rw [dif_pos (by norm_num), dif_pos (by omega)]
        show e + 1 + 1 ≤ 254
        omega
      · rw [encodeMag_eq_normal n e (by omega) (by omega) (by omega)]
        show e + 1 ≤ 254
        omega

theorem sqrtMagPos_finite_and_sign (M : ℕ) (hM : M ≤ 16777215 * 2 ^ 253) :
    (sqrtMagPos M).is_finite = true ∧ (sqrtMagPos M).sign = false := by
  rw [sqrtMagPos]
  refine ⟨?_, encodeMag_sign_false _ _⟩
  rw [F32.is_finite_iff]
  have hA : M * 2 ^ 149 < 2 ^ 213 * 2 ^ 213 := by
    calc M * 2 ^ 149 ≤ 16777215 * 2 ^ 253 * 2 ^ 149 :=
          Nat.mul_le_mul_right _ hM
    _ < 2 ^ 24 * 2 ^ 253 * 2 ^ 149 := by
          apply (Nat.mul_lt_mul_right (Nat.pos_pow_of_pos _ (by norm_num))).mpr
          exact (Nat.mul_lt_mul_right (Nat.pos_pow_of_pos _ (by norm_num))).mpr
            (by norm_num)
    _ = 2 ^ (24 + 253 + 149) := by rw [← pow_add, ← pow_add]
    _ = 2 ^ 213 * 2 ^ 213 := by rw [← pow_add]
  have hk : Nat.sqrt (M * 2 ^ 149) < 2 ^ 213 := by
    rw [Nat.sqrt_lt']
    calc M * 2 ^ 149 < 2 ^ 213 * 2 ^ 213 := hA
    _ ≤ 2 ^ 213 * 2 ^ 213 := le_refl _
  set k := Nat.sqrt (M * 2 ^ 149) with hkdef
  apply encodeMag_ex_le
  · -- the rounded significand never exceeds 2^24
    have hn0 : k / 2 ^ (nlog2 k - 23) < 16777216 := by
      by_cases hk0 : k = 0
      · rw [hk0]
        simp
      · have hkpos : 0 < k := Nat.pos_of_ne_zero hk0
        have hkbig : k < 2 ^ 512 := by
          calc k < 2 ^ 213 := hk
          _ ≤ 2 ^ 512 := Nat.pow_le_pow_right (by norm_num) (by norm_num)
        obtain ⟨klo, khi⟩ := nlog2_spec k hkpos hkbig
        by_cases hL : nlog2 k ≤ 23
        · have hs0 : nlog2 k - 23 = 0 := by omega
          rw [hs0, pow_zero, Nat.div_one]
          calc k < 2 ^ (nlog2 k + 1) := khi
          _ ≤ 2 ^ 24 := Nat.pow_le_pow_right (by norm_num) (by omega)
        · rw [Nat.div_lt_iff_lt_mul (Nat.pos_pow_of_pos _ (by norm_num))]
          calc k < 2 ^ (nlog2 k + 1) := khi
          _ = 2 ^ 24 * 2 ^ (nlog2 k - 23) := by
                rw [← pow_add]
                congr 1
                omega
          _ = 16777216 * 2 ^ (nlog2 k - 23) := by norm_num
    split
    · omega
    · omega
  · -- the scale is well below the overflow range
    have hlog : nlog2 k ≤ 252 := by
      by_cases hk0 : k = 0
      · rw [hk0]
        rw [show nlog2 0 = 0 from rfl]
        norm_num
      · have := nlog2_lt_of k 213 (Nat.pos_of_ne_zero hk0) hk (by
          calc k < 2 ^ 213 := hk
          _ ≤ 2 ^ 512 := Nat.pow_le_pow_right (by norm_num) (by norm_num))
        omega
    omega

theorem F32.fLt_posZero_false_of_sign (q : F32) (hq : q.sign = false) :
    F32.fLt q posZero = false := by
  have hnot : ¬(q.intVal < posZero.intVal) := by
    rw [intVal_posZero, F32.intVal_of_sign_false q hq]
    omega
  simp [F32.fLt, hnot]

theorem F32.fGt_true_elim (x y : F32) (h : F32.fGt x y = true) :
    x.is_nan = false ∧ y.is_nan = false ∧ y.intVal < x.intVal := by
  rw [F32.fGt, Bool.and_eq_true, Bool.and_eq_true] at h
  obtain ⟨⟨h1, h2⟩, h3⟩ := h
  refine ⟨?_, ?_, of_decide_eq_true h3⟩
  · cases hq : x.is_nan
    · rfl
    · rw [hq] at h1
      exact absurd h1 (by decide)
  · cases hq : y.is_nan
    · rfl
    · rw [hq] at h2
      exact absurd h2 (by decide)

theorem F32.fEq_true_elim (x y : F32) (h : F32.fEq x y = true) :
    x.is_nan = false ∧ y.is_nan = false ∧ x.intVal = y.intVal := by
  rw [F32.fEq, Bool.and_eq_true, Bool.and_eq_true] at h
  obtain ⟨⟨h1, h2⟩, h3⟩ := h
  refine ⟨?_, ?_, of_decide_eq_true h3⟩
  · cases hq : x.is_nan
    · rfl
    · rw [hq] at h1
      exact absurd h1 (by decide)
  · cases hq : y.is_nan
    · rfl
    · rw [hq] at h2
      exact absurd h2 (by decide)

theorem F32.fLt_eq_false_of_not_lt (x y : F32) (h : ¬(x.intVal < y.intVal)) :
    F32.fLt x y = false := by
  rw [F32.fLt, decide_eq_false h, Bool.and_false]

theorem F32.fGt_eq_false_of_not_lt (x y : F32) (h : ¬(y.intVal < x.intVal)) :
    F32.fGt x y = false := by
  rw [F32.fGt, decide_eq_false h, Bool.and_false]

/-! ### The claims -/

/-- C1: the claim states that max/min return the non-NaN operand whenever
exactly one operand is NaN.  The code violates it (a code bug against its own
doc comment "If one of the arguments is NaN, then the other argument is
returned"): `max(5.0, NaN)` evaluates `5.0 > NaN`, which is false, and
returns the second operand NaN; only the `max(NaN, 5.0)` order returns 5.0.
Likewise for `min`. -/
theorem C1_max_min_nan_behavior :
    (f32_max fiveF qNaN).is_nan = true ∧ f32_max qNaN fiveF = fiveF ∧
      (f32_min fiveF qNaN).is_nan = true ∧ f32_min qNaN fiveF = fiveF := by
  decide

/-- C2 counterexample: at the NaN pattern `0x7FC00000`, both
`is_sign_positive` and `is_sign_negative` return false, refuting the claim
that exactly one of them is true for every bit pattern including NaN. -/
theorem C2_nan_sign_counterexample :
    is_sign_positive qNaN = false ∧ is_sign_negative qNaN = false := by
  decide

/-- C3 counterexample: at x = -0.0, fract(x) + trunc(x) is +0.0 — numerically
equal to x but not the identical bit pattern — refuting the claim for the
finite value -0.0. -/
theorem C3_negzero_counterexample :
    f32_add (f32_fract negZero) (f32_trunc negZero) = posZero ∧
      posZero ≠ negZero := by
  decide

/-- C3 witness: the amended theorem applied at the concrete finite value 2.5
(fract 2.5 = 0.5, trunc 2.5 = 2.0, and 0.5 + 2.0 recovers the pattern of 2.5
exactly). -/
theorem C3_fract_trunc_amended_witness :
    twoPointFiveF.is_finite = true ∧ twoPointFiveF ≠ negZero ∧
      f32_add (f32_fract twoPointFiveF) (f32_trunc twoPointFiveF) = twoPointFiveF :=
  ⟨by decide, by decide, C3_fract_trunc_amended twoPointFiveF (by decide) (by decide)⟩

/-- C4: sqrt returns NaN for every x < 0.0; sqrt(-0.0) = -0.0 (not NaN); and
for every finite non-negative x (IEEE-wise: finite and not below +0.0) the
result is finite and non-negative. -/
theorem C4_sqrt_contract (x : F32) :
    (F32.fLt x posZero = true → f32_sqrt x = qNaN) ∧
      f32_sqrt negZero = negZero ∧
      (x.is_finite = true → F32.fLt x posZero = false →
        (f32_sqrt x).is_finite = true ∧ F32.fLt (f32_sqrt x) posZero = false) := by
  refine ⟨?_, by decide, ?_⟩
  · intro h
    rw [f32_sqrt, if_pos h]
  · intro hfin hnneg
    have hx : x.ex.val ≤ 254 := (F32.is_finite_iff x).mp hfin
    rw [f32_sqrt, if_neg (by rw [hnneg]; exact Bool.false_ne_true)]
    rw [sqrtIntrinsic,
      if_neg (by rw [F32.is_nan_false_of x hx]; exact Bool.false_ne_true)]
    by_cases hz : x.natMag = 0
    · rw [if_pos hz]
      exact ⟨hfin, hnneg⟩
    · rw [if_neg hz]
      have hs : x.sign = false := by
        cases hh : x.sign
        · rfl
        · exfalso
          have hlt : F32.fLt x posZero = true := by
            simp only [F32.fLt, F32.is_nan_false_of x hx,
              show posZero.is_nan = false from rfl, Bool.not_false, Bool.true_and]
            rw [intVal_posZero, F32.intVal_of_sign_true x hh]
            simp
            exact_mod_cast Nat.pos_of_ne_zero hz
          rw [hlt] at hnneg
          simp at hnneg
      rw [if_neg (by rw [hs]; exact Bool.false_ne_true)]
      rw [if_neg (by rw [F32.is_infinite_false_of x hx]; exact Bool.false_ne_true)]
      obtain ⟨hfin2, hsgn2⟩ :=
        sqrtMagPos_finite_and_sign x.natMag (F32.natMag_le_max x hx)
      exact ⟨hfin2, F32.fLt_posZero_false_of_sign _ hsgn2⟩

/-- C4 witness: the theorem applied at x = -4.0 (negative, so NaN) and at
x = 4.0 (finite non-negative, so a finite non-negative result). -/
theorem C4_sqrt_contract_witness :
    (F32.fLt (F32.neg fourF) posZero = true ∧ f32_sqrt (F32.neg fourF) = qNaN) ∧
      fourF.is_finite = true ∧ F32.fLt fourF posZero = false ∧
      (f32_sqrt fourF).is_finite = true ∧ F32.fLt (f32_sqrt fourF) posZero = false :=
  ⟨⟨by decide, (C4_sqrt_contract (F32.neg fourF)).1 (by decide)⟩, by decide, by decide,
    ((C4_sqrt_contract fourF).2.2 (by decide) (by decide)).1,
    ((C4_sqrt_contract fourF).2.2 (by decide) (by decide)).2⟩

/-- C5: acosh returns NaN for every x < 1.0; acosh(1.0) = 0.0 exactly; and
for every x ≥ 1.0 (IEEE `>=`) it equals ln(x + sqrt(x*x - 1)) as computed by
this operation set. -/
theorem C5_acosh_contract (x : F32) :
    (F32.fLt x oneF = true → f32_acosh x = qNaN) ∧
      f32_acosh oneF = posZero ∧
      (F32.fGe x oneF = true → f32_acosh x = acoshSpecFormula x) := by
  refine ⟨?_, by decide, ?_⟩
  · intro h
    rw [f32_acosh, if_pos h]
  · intro h
    have hne : F32.fLt x oneF = false := by
      rw [F32.fGe, Bool.or_eq_true] at h
      rcases h with h | h
      · obtain ⟨hna, hnb, hlt⟩ := F32.fGt_true_elim x oneF h
        exact F32.fLt_eq_false_of_not_lt x oneF (by omega)
      · obtain ⟨hna, hnb, heq⟩ := F32.fEq_true_elim x oneF h
        exact F32.fLt_eq_false_of_not_lt x oneF (by omega)
    rw [f32_acosh, if_neg (by rw [hne]; exact Bool.false_ne_true), acoshSpecFormula]

/-- C5 witness: the theorem applied at x = 0.5 (below 1.0, hence NaN) and at
x = 2.0 (at least 1.0, hence the ln/sqrt formula). -/
theorem C5_acosh_contract_witness :
    (F32.fLt halfF oneF = true ∧ f32_acosh halfF = qNaN) ∧
      F32.fGe twoF oneF = true ∧ f32_acosh twoF = acoshSpecFormula twoF :=
  ⟨⟨by decide, (C5_acosh_contract halfF).1 (by decide)⟩, by decide,
    (C5_acosh_contract twoF).2.2 (by decide)⟩

/-- C6: asinh(NEG_INFINITY) = NEG_INFINITY via the direct special case, and
for every other input pattern x, asinh(x) equals ln(x + sqrt(x*x + 1)) as
computed by this operation set. -/
theorem C6_asinh_contract (x : F32) :
    f32_asinh negInf = negInf ∧
      (x ≠ negInf → f32_asinh x = asinhSpecFormula x) := by
  refine ⟨by decide, ?_⟩
  intro h
  have hne : F32.fEq x negInf = false := by
    by_cases hn : x.is_nan = true
    · exact F32.fEq_false_of_nan_left _ _ hn
    · have hnf : x.is_nan = false := by
        cases hh : x.is_nan
        · rfl
        · exact absurd hh hn
      have hxi : x.intVal ≠ negInf.intVal := by
        intro hcon
        apply h
        have hmag : x.natMag = 8388608 * 2 ^ 254 := by
          have habs := congrArg Int.natAbs hcon
          rw [F32.intVal_natAbs, intVal_negInf, Int.natAbs_neg] at habs
          rw [habs]
          norm_num
        have hex : x.ex.val = 255 := by
          by_contra hc
          have hle := F32.natMag_le_max x (by have := x.ex.isLt; omega)
          have hEq : (8388608 : ℕ) * 2 ^ 254 = 16777216 * 2 ^ 253 := by
            rw [show (254 : ℕ) = 253 + 1 from rfl, pow_succ]
            ring
          omega
        have hfr : x.frac.val = 0 := by
          by_contra hc
          exact hn (by simp [F32.is_nan, hex, hc])
        have hsgn : x.sign = true := by
          cases hh : x.sign
          · exfalso
            rw [F32.intVal_of_sign_false x hh, intVal_negInf] at hcon
            omega
          · rfl
        rw [F32.eq_mk_of_fields x true 255 0 (by norm_num) (by norm_num) hsgn hex hfr]
        decide
      rw [F32.fEq, decide_eq_false hxi, Bool.and_false]
  rw [f32_asinh, if_neg (by rw [hne]; exact Bool.false_ne_true), asinhSpecFormula]

/-- C6 witness: the theorem applied at x = +0.0, which is not the negative
infinity pattern, so asinh goes through the general formula. -/
theorem C6_asinh_contract_witness :
    posZero ≠ negInf ∧ f32_asinh posZero = asinhSpecFormula posZero :=
  ⟨by decide, (C6_asinh_contract posZero).2 (by decide)⟩

/-- C7: for every f32 bit pattern, exactly one of is_nan, is_infinite,
is_finite is true; in particular a finite pattern is neither NaN nor
infinite. -/
theorem C7_classification_trichotomy (x : F32) :
    x.is_nan.toNat + x.is_infinite.toNat + x.is_finite.toNat = 1 ∧
      (x.is_finite = true → x.is_nan = false ∧ x.is_infinite = false) := by
  constructor
  · by_cases h1 : x.ex.val = 255 <;> by_cases h2 : x.frac.val = 0 <;>
      simp [F32.is_nan, F32.is_infinite, F32.is_finite, h1, h2]
  · intro h
    have hx := (F32.is_finite_iff x).mp h
    exact ⟨F32.is_nan_false_of x hx, F32.is_infinite_false_of x hx⟩

/-- C7 witness: the theorem applied at the finite pattern 1.0. -/
theorem C7_classification_trichotomy_witness :
    oneF.is_nan.toNat + oneF.is_infinite.toNat + oneF.is_finite.toNat = 1 ∧
      oneF.is_finite = true ∧ oneF.is_nan = false ∧ oneF.is_infinite = false :=
  ⟨(C7_classification_trichotomy oneF).1, by decide,
    (C7_classification_trichotomy oneF).2 (by decide)⟩

/-- C8: log(x, base) returns exactly (same bit pattern) ln(x) / ln(base)
computed with this operation set's ln and division — it is a derived
operation, not a dedicated primitive. -/
theorem C8_log_is_derived (x base : F32) : f32_log x base = logSpecFormula x base :=
  rfl

/-- C9: whenever two operands compare as numerically equal under IEEE
ordering, both max and min return the second argument; in particular
max(0.0, -0.0) is the -0.0 pattern and min(-0.0, 0.0) is the +0.0 pattern. -/
theorem C9_minmax_second_arg (a b : F32) :
    (F32.fEq a b = true → f32_max a b = b ∧ f32_min a b = b) ∧
      f32_max posZero negZero = negZero ∧ f32_min negZero posZero = posZero := by
  refine ⟨?_, by decide, by decide⟩
  intro h
  obtain ⟨hna, hnb, heq⟩ := F32.fEq_true_elim a b h
  constructor
  · rw [f32_max,
      if_neg (by rw [F32.fGt_eq_false_of_not_lt a b (by omega)]
                 exact Bool.false_ne_true)]
  · rw [f32_min,
      if_neg (by rw [F32.fLt_eq_false_of_not_lt a b (by omega)]
                 exact Bool.false_ne_true)]

/-- C9 witness: the theorem applied at (0.0, -0.0), which compare equal, so
both max and min return the second argument -0.0. -/
theorem C9_minmax_second_arg_witness :
    F32.fEq posZero negZero = true ∧ f32_max posZero negZero = negZero ∧
      f32_min posZero negZero = negZero :=
  ⟨by decide, ((C9_minmax_second_arg posZero negZero).1 (by decide)).1,
    ((C9_minmax_second_arg posZero negZero).1 (by decide)).2⟩

/-- C10: asinh(POSITIVE_INFINITY) = positive infinity through the general
formula branch: inf*inf = inf, inf + 1 = inf, sqrt(inf) = inf,
inf + inf = inf, ln(inf) = inf — no positive-infinity special case is
needed. -/
theorem C10_asinh_posinf : f32_asinh posInf = posInf := by
  decide
